import Mathlib

/-
Shallow embedding of the Text-to-Image-and-reverse repository
(src/TextToImage.py and src/ImageToText.py).

Modelling conventions:
* A Python string is a list of Unicode code points (List Nat); ord of a
  one-character string is that code point, chr of a code point is the code
  point itself in this representation.
* Fallible Python functions (ones that can raise) return Except PyErr.
* The PIL grayscale image is modelled as an in-memory raster: width, height
  and the list of pixel intensities in the exact scan order both scripts use
  (outer loop row in range(size[0]), inner loop col in range(size[1]),
  so the flat index of cell (row, col) is row * height + col).  File I/O
  (img.save, Image.open, os.path.isfile) is outside the model.
-/

namespace TextImage

/-- Exception outcomes of the embedded functions (TypeError, ValueError and
the IndexError a negative index raises on an empty Python string). -/
inductive PyErr where
  | typeError
  | valueError
  | indexError
  deriving DecidableEq

/-- Dynamically typed Python values that can reach the text parameter of
encode: a string (list of code points) or a non-string value. -/
inductive PyVal where
  | str : List Nat → PyVal
  | int : Int → PyVal
  | pyNone : PyVal
  deriving DecidableEq

/-- Model of str.lower() on one code point: exact on the ASCII range
(65..90 map to 97..122) and the identity on every other code point, where
Python may lowercase further (e.g. 196 to 228).  Theorems about
check_filename therefore either restrict their string inputs to ASCII
code points, on which this model coincides with Python, or do not depend
on lower-casing beyond its fixed points. -/
def py_lower (c : Nat) : Nat := if 65 ≤ c ∧ c ≤ 90 then c + 32 else c

/-- Model of the Python slice filepath[-n:] (for n ≥ 1): the last
min(n, length) characters of the string. -/
def takeLast (l : List Nat) (n : Nat) : List Nat := l.drop (l.length - n)

/-- Model of the trailing-slash stripping loop of check_filename
(while filepath[-1] == "/" or filepath[-1] == "\\": filepath = filepath[0:-1]).
The loop inspects the last character, so the model recurses over the
reversed string; indexing [-1] into an emptied string raises IndexError.
Code point 47 is the slash, 92 the backslash. -/
def strip_rev : List Nat → Except PyErr (List Nat)
  | [] => Except.error PyErr.indexError
  | c :: rest =>
    if c = 47 ∨ c = 92 then strip_rev rest else Except.ok ((c :: rest).reverse)

/-- Model of check_filename (identical in TextToImage.py lines 10-27 and
ImageToText.py lines 10-20).  Code point 46 is the period.  An empty
extension makes extension[0] raise IndexError; a non-period first character
raises ValueError; otherwise the lower-cased tail of filepath is compared
with the lower-cased extension and, on mismatch, trailing slashes are
stripped (which can raise IndexError) and the lower-cased extension is
appended. -/
def check_filename (filepath extension : List Nat) : Except PyErr (List Nat) :=
  match extension with
  | [] => Except.error PyErr.indexError
  | e0 :: _ =>
    if e0 ≠ 46 then Except.error PyErr.valueError
    else
      let file_extension := (takeLast filepath extension.length).map py_lower
      let ext := extension.map py_lower
      if file_extension ≠ ext then
        match strip_rev filepath.reverse with
        | Except.error e => Except.error e
        | Except.ok fp => Except.ok (fp ++ ext)
      else Except.ok filepath

/-- Model of convert_char_to_int (TextToImage.py lines 30-40); char is the
code point of the character (what ord returns). -/
def convert_char_to_int (char : Nat) (limit : Nat) : Nat :=
  let value := char % limit
  if value = 0 then 1 else value

/-- Model of _factors (TextToImage.py lines 69-78): the ascending list of
all divisors of number, which is what sorted(set(...)) over the pairs
(i, number // i) for the divisors i up to the square root produces. -/
def _factors (number : Nat) : List Nat :=
  (List.range' 1 number).filter (fun i => number % i = 0)

/-- Model of the while-loop of get_image_size (lines 62-64): repeatedly
drop the first and last element.  The first argument is fuel bounding the
number of iterations; get_image_size passes the length of the list, which
always suffices because each pass removes two elements.  The Python guard
len(f) != 2 is written 2 < f.length, which agrees with it on the
even-length lists of length ≥ 2 that reach this loop (theorem for C9). -/
def pop_middle : Nat → List Nat → List Nat
  | 0, f => f
  | fuel + 1, f => if 2 < f.length then pop_middle fuel ((f.drop 1).dropLast) else f

/-- Model of the true_length variable of get_image_size (lines 51-55): the
text length padded to an even number of cells, reserving null
terminator(s): two for even text lengths, one for odd. -/
def true_length (text_length : Nat) : Nat :=
  if text_length % 2 = 0 then text_length + 2 else text_length + 1

/-- Model of get_image_size (TextToImage.py lines 43-66). -/
def get_image_size (text_length : Nat) : Nat × Nat :=
  let f := _factors (true_length text_length)
  if f.length % 2 ≠ 0 then
    let m := f.getD (f.length / 2) 0
    (m, m)
  else
    let f2 := pop_middle f.length f
    (f2.getD 1 0, f2.getD 0 0)

/-- In-memory grayscale raster: width, height, and the w*h pixel
intensities listed in the scan order of both scripts (flat index of cell
(row, col) is row * height + col). -/
structure GrayImage where
  width : Nat
  height : Nat
  pixels : List Nat
  deriving DecidableEq

/-- The string ".png" as code points. -/
def png_ext : List Nat := [46, 112, 110, 103]

/-- The raster built by the pixel loop of encode (TextToImage.py lines
99-108): a blank (all-zero) image of the computed size, whose cell at flat
scan index ind receives convert_char_to_int(text[ind], limit) while
ind < len(text); the remaining cells keep the zero the break leaves in
place. -/
def encode_raster (text : List Nat) (limit : Nat) : GrayImage :=
  let text_length := text.length
  let size := get_image_size text_length
  { width := size.1
    height := size.2
    pixels := (List.range (size.1 * size.2)).map (fun ind =>
      if ind < text_length then convert_char_to_int (text.getD ind 0) limit else 0) }

/-- Model of encode (TextToImage.py lines 80-110): the type check on text
comes first and short-circuits everything else; then the size is computed,
the output path is normalised by check_filename (whose errors propagate),
and the raster is filled.  Saving the file is outside the model; the
returned pair is (result_path, raster). -/
def encode (text : PyVal) (image_path : List Nat) (limit : Nat) :
    Except PyErr (List Nat × GrayImage) :=
  match text with
  | PyVal.str s =>
    match check_filename image_path png_ext with
    | Except.error e => Except.error e
    | Except.ok result_path => Except.ok (result_path, encode_raster s limit)
  | _ => Except.error PyErr.typeError

/-- Model of decode (ImageToText.py lines 23-33): walk the raster in the
same scan order and append chr(pixel_value) for every non-zero cell (in the
code-point representation, chr is the identity).  Loading the image from
disk is outside the model. -/
def decode (img : GrayImage) : List Nat :=
  img.pixels.filterMap (fun pixel_value =>
    if pixel_value ≠ 0 then some pixel_value else none)

lemma getD_eq_get {l : List Nat} {i : Nat} (h : i < l.length) : l.getD i 0 = l[i] := by
  rw [List.getD_eq_getElem?_getD, List.getElem?_eq_getElem h]
  rfl

lemma mem_factors {n i : Nat} : i ∈ _factors n ↔ (1 ≤ i ∧ i ≤ n) ∧ n % i = 0 := by
  simp only [_factors, List.mem_filter, List.mem_range', decide_eq_true_eq]
  constructor
  · rintro ⟨⟨j, hj, rfl⟩, hmod⟩
    exact ⟨⟨by omega, by omega⟩, hmod⟩
  · rintro ⟨⟨h1, h2⟩, hmod⟩
    exact ⟨⟨i - 1, by omega, by omega⟩, hmod⟩

lemma sorted_factors (n : Nat) : List.Sorted (· < ·) (_factors n) :=
  List.Pairwise.sublist (List.filter_sublist _) (List.pairwise_lt_range' 1 n)

lemma nodup_factors (n : Nat) : (_factors n).Nodup :=
  (sorted_factors n).nodup

lemma one_mem_factors {n : Nat} (hn : 1 ≤ n) : 1 ∈ _factors n :=
  mem_factors.mpr ⟨⟨le_refl 1, hn⟩, Nat.mod_one n⟩

lemma self_mem_factors {n : Nat} (hn : 1 ≤ n) : n ∈ _factors n :=
  mem_factors.mpr ⟨⟨hn, le_refl n⟩, Nat.mod_self n⟩

lemma two_le_length_factors {n : Nat} (hn : 2 ≤ n) : 2 ≤ (_factors n).length := by
  have h1 : 1 ∈ _factors n := one_mem_factors (by omega)
  have h2 : n ∈ _factors n := self_mem_factors (by omega)
  match hf : _factors n with
  | [] => rw [hf] at h1; simp at h1
  | [a] =>
    rw [hf] at h1 h2
    simp at h1 h2
    omega
  | a :: b :: t => simp

lemma div_antitone_on_divisors {n a b : Nat} (hn : 1 ≤ n) (ha : a ∣ n) (hb : b ∣ n)
    (hab : a < b) : n / b < n / a := by
  have hb0 : 0 < b := by omega
  have hbn : b ≤ n := Nat.le_of_dvd (by omega) hb
  have h1 : 0 < n / b := Nat.div_pos hbn hb0
  have h3 : n / b * b = n := Nat.div_mul_cancel hb
  have h4 : n / a * a = n := Nat.div_mul_cancel ha
  have h5 : n / b * a < n / a * a := by
    calc n / b * a < n / b * b := mul_lt_mul_of_pos_left hab h1
      _ = n := h3
      _ = n / a * a := h4.symm
  exact lt_of_mul_lt_mul_right h5 (Nat.zero_le a)

/-- Key structural fact about the sorted divisor list: applying d ↦ n / d
to the reversed list gives back the list itself, because division by n is
an order-reversing involution on the divisors of n. -/
lemma factors_reverse_map (n : Nat) (hn : 1 ≤ n) :
    (_factors n).reverse.map (fun d => n / d) = _factors n := by
  have hs : List.Sorted (· < ·) (_factors n) := sorted_factors n
  have hrev : List.Pairwise (fun a b => b < a) (_factors n).reverse :=
    List.pairwise_reverse.mpr hs
  have hmap : List.Sorted (· < ·) ((_factors n).reverse.map (fun d => n / d)) := by
    have hp : List.Pairwise (fun a b => n / a < n / b) (_factors n).reverse := by
      refine List.Pairwise.imp_of_mem ?_ hrev
      intro a b ha hb hba
      rw [List.mem_reverse] at ha hb
      obtain ⟨⟨ha1, _⟩, hamod⟩ := mem_factors.mp ha
      obtain ⟨⟨hb1, _⟩, hbmod⟩ := mem_factors.mp hb
      exact div_antitone_on_divisors hn (Nat.dvd_iff_mod_eq_zero.mpr hbmod)
        (Nat.dvd_iff_mod_eq_zero.mpr hamod) hba
    exact List.pairwise_map.mpr hp
  have hmem : ∀ x, x ∈ (_factors n).reverse.map (fun d => n / d) ↔ x ∈ _factors n := by
    intro x
    simp only [List.mem_map, List.mem_reverse]
    constructor
    · rintro ⟨d, hd, rfl⟩
      obtain ⟨⟨hd1, hdn⟩, hdmod⟩ := mem_factors.mp hd
      have hdvd : d ∣ n := Nat.dvd_iff_mod_eq_zero.mpr hdmod
      have hdivdvd : n / d ∣ n := ⟨d, (Nat.div_mul_cancel hdvd).symm⟩
      refine mem_factors.mpr ⟨⟨Nat.div_pos hdn (by omega), Nat.div_le_self n d⟩, ?_⟩
      exact Nat.dvd_iff_mod_eq_zero.mp hdivdvd
    · intro hx
      obtain ⟨⟨hx1, hxn⟩, hxmod⟩ := mem_factors.mp hx
      have hxdvd : x ∣ n := Nat.dvd_iff_mod_eq_zero.mpr hxmod
      have hdivdvd : n / x ∣ n := ⟨x, (Nat.div_mul_cancel hxdvd).symm⟩
      refine ⟨n / x, mem_factors.mpr ⟨⟨Nat.div_pos hxn (by omega), Nat.div_le_self n x⟩,
        Nat.dvd_iff_mod_eq_zero.mp hdivdvd⟩, ?_⟩
      exact Nat.div_div_self hxdvd (by omega)
  have hnd1 : ((_factors n).reverse.map (fun d => n / d)).Nodup := hmap.nodup
  have hperm := (List.perm_ext_iff_of_nodup hnd1 (nodup_factors n)).mpr hmem
  haveI : IsAntisymm Nat (· < ·) := ⟨fun a _ h1 h2 => absurd (h1.trans h2) (lt_irrefl a)⟩
  exact List.eq_of_perm_of_sorted hperm hmap hs

/-- The sorted divisor list pairs up around its middle: entries at
positions i and j with i + j + 1 = length multiply to n. -/
lemma factors_pair (n : Nat) (hn : 1 ≤ n) {i j : Nat} (hi : i < (_factors n).length)
    (hj : j < (_factors n).length) (hij : i + j + 1 = (_factors n).length) :
    (_factors n)[i] * ((_factors n)[j]) = n := by
  have hj' : j = (_factors n).length - 1 - i := by omega
  subst hj'
  have hmain := factors_reverse_map n hn
  have hi2 : i < ((_factors n).reverse.map (fun d => n / d)).length := by
    simp
    omega
  have hsome : ((_factors n).reverse.map (fun d => n / d))[i]? = (_factors n)[i]? := by
    rw [hmain]
  rw [List.getElem?_eq_getElem hi2, List.getElem?_eq_getElem hi] at hsome
  have hpt := Option.some.inj hsome
  rw [List.getElem_map] at hpt
  rw [List.getElem_reverse] at hpt
  have hmemj : (_factors n)[(_factors n).length - 1 - i] ∈ _factors n :=
    List.getElem_mem _
  obtain ⟨⟨hj1, hjn⟩, hjmod⟩ := mem_factors.mp hmemj
  have hjdvd : (_factors n)[(_factors n).length - 1 - i] ∣ n :=
    Nat.dvd_iff_mod_eq_zero.mpr hjmod
  calc (_factors n)[i] * ((_factors n)[(_factors n).length - 1 - i])
      = n / ((_factors n)[(_factors n).length - 1 - i]) *
        ((_factors n)[(_factors n).length - 1 - i]) := by rw [← hpt]
    _ = n := Nat.div_mul_cancel hjdvd

lemma drop_dropLast_getD (l : List Nat) (i : Nat) (h : i < l.length - 2) :
    ((l.drop 1).dropLast).getD i 0 = l.getD (i + 1) 0 := by
  rw [List.getD_eq_getElem?_getD, List.getD_eq_getElem?_getD]
  rw [List.dropLast_eq_take, List.getElem?_take]
  have hlen : (l.drop 1).length = l.length - 1 := by simp
  rw [hlen]
  rw [if_pos (by omega)]
  rw [List.getElem?_drop]
  have hcomm : 1 + i = i + 1 := by omega
  rw [hcomm]

/-- Characterisation of the trimming loop: on a list of even length
2*(k+1) with enough fuel it returns exactly the two middle elements. -/
lemma pop_middle_eq : ∀ (k fuel : Nat) (l : List Nat), l.length = 2 * (k + 1) → k ≤ fuel →
    pop_middle fuel l = [l.getD k 0, l.getD (k + 1) 0] := by
  intro k
  induction k with
  | zero =>
    intro fuel l hlen _
    match l, hlen with
    | [a, b], _ =>
      cases fuel with
      | zero => rfl
      | succ fu => simp [pop_middle]
  | succ k ih =>
    intro fuel l hlen hfuel
    cases fuel with
    | zero => omega
    | succ fu =>
      have hgt : 2 < l.length := by omega
      have hstep : pop_middle (fu + 1) l = pop_middle fu ((l.drop 1).dropLast) := by
        simp [pop_middle, hgt]
      rw [hstep]
      have hinner : ((l.drop 1).dropLast).length = 2 * (k + 1) := by
        simp
        omega
      rw [ih fu _ hinner (by omega)]
      rw [drop_dropLast_getD l k (by omega), drop_dropLast_getD l (k + 1) (by omega)]

/-- Central geometry theorem: get_image_size returns a height of at least
1, a width at least the height, and a product equal to the adjusted
true_length (text_length + 2 when even, text_length + 1 when odd). -/
lemma get_image_size_spec (tl : Nat) :
    1 ≤ (get_image_size tl).2 ∧ (get_image_size tl).2 ≤ (get_image_size tl).1 ∧
    (get_image_size tl).1 * (get_image_size tl).2 = true_length tl := by
  simp only [get_image_size]
  have htwo : 2 ≤ true_length tl := by unfold true_length; split <;> omega
  set n := true_length tl with hn_def
  have hn2 : 2 ≤ n := htwo
  set f := _factors n with hf_def
  have hs : List.Sorted (· < ·) f := sorted_factors n
  have hlen2 : 2 ≤ f.length := two_le_length_factors hn2
  have hflen : (_factors n).length = f.length := by rw [hf_def]
  by_cases hpar : f.length % 2 ≠ 0
  · rw [if_pos hpar]
    have hi : f.length / 2 < f.length := by omega
    have hgd : f.getD (f.length / 2) 0 = f[f.length / 2] := getD_eq_get hi
    have hpairing := factors_pair n (by omega) hi hi (by omega)
    have hmem : f[f.length / 2] ∈ f := List.getElem_mem _
    obtain ⟨⟨h1, _⟩, _⟩ := mem_factors.mp hmem
    refine ⟨by rw [hgd]; exact h1, by rw [hgd], ?_⟩
    rw [hgd]
    exact hpairing
  · rw [if_neg hpar]
    push_neg at hpar
    obtain ⟨k, hk⟩ : ∃ k, f.length = 2 * k := ⟨f.length / 2, by omega⟩
    have hk1 : 1 ≤ k := by omega
    have hk' : f.length = 2 * ((k - 1) + 1) := by omega
    rw [pop_middle_eq (k - 1) f.length f hk' (by omega)]
    have hia : k - 1 < f.length := by omega
    have hib : k < f.length := by omega
    have hk2 : k - 1 + 1 = k := by omega
    rw [hk2]
    simp only [List.getD_cons_succ, List.getD_cons_zero]
    rw [getD_eq_get hia, getD_eq_get hib]
    have hpairing := factors_pair n (by omega) hib hia (by omega)
    have hmema : f[k - 1] ∈ f := List.getElem_mem _
    obtain ⟨⟨h1a, _⟩, _⟩ := mem_factors.mp hmema
    have hlt : f[k - 1] < f[k] := by
      have := hs.rel_get_of_lt (a := ⟨k - 1, hia⟩) (b := ⟨k, hib⟩) (by simp; omega)
      simpa using this
    exact ⟨h1a, by omega, hpairing⟩

lemma convert_char_to_int_ne_zero (char limit : Nat) :
    convert_char_to_int char limit ≠ 0 := by
  by_cases h : char % limit = 0 <;> simp [convert_char_to_int, h]

/-- The pixel list of the encoder splits into the mapped text followed by
the zero padding. -/
lemma encode_pixels_split (s : List Nat) (limit k : Nat) (h : s.length ≤ k) :
    (List.range k).map (fun ind =>
        if ind < s.length then convert_char_to_int (s.getD ind 0) limit else 0)
      = s.map (fun c => convert_char_to_int c limit) ++ List.replicate (k - s.length) 0 := by
  refine List.ext_getElem ?_ ?_
  · simp
    omega
  · intro i h1 h2
    rw [List.getElem_map, List.getElem_range]
    by_cases hi : i < s.length
    · rw [if_pos hi]
      rw [List.getElem_append_left (by simpa using hi)]
      rw [List.getElem_map]
      rw [getD_eq_get hi]
    · rw [if_neg hi]
      rw [List.getElem_append_right (by simpa using hi)]
      rw [List.getElem_replicate]

lemma filterMap_replicate_zero (r : Nat) :
    List.filterMap (fun v => if v ≠ 0 then some v else none) (List.replicate r 0) = [] := by
  induction r with
  | zero => rfl
  | succ m ih => simp [List.replicate_succ, List.filterMap_cons, ih]

lemma filterMap_conv (s : List Nat) (limit : Nat) :
    List.filterMap (fun v => if v ≠ 0 then some v else none)
        (s.map (fun c => convert_char_to_int c limit))
      = s.map (fun c => convert_char_to_int c limit) := by
  induction s with
  | nil => rfl
  | cons c rest ih =>
    simp only [List.map_cons, List.filterMap_cons]
    rw [if_pos (convert_char_to_int_ne_zero c limit), ih]

/-- Decoding an encoded raster yields exactly the value-mapped text: the
zero padding contributes no characters. -/
lemma decode_encode_raster (s : List Nat) (limit : Nat) :
    decode (encode_raster s limit) = s.map (fun c => convert_char_to_int c limit) := by
  have hsz := get_image_size_spec s.length
  have htwo : 2 ≤ true_length s.length := by unfold true_length; split <;> omega
  have hlen : s.length ≤ (get_image_size s.length).1 * (get_image_size s.length).2 := by
    rw [hsz.2.2]
    unfold true_length
    split <;> omega
  simp only [decode, encode_raster]
  rw [encode_pixels_split s limit _ hlen]
  rw [List.filterMap_append, filterMap_replicate_zero, filterMap_conv, List.append_nil]

/-- C2: for every text_length, get_image_size returns a pair
(width, height) with width ≥ height ≥ 1 and width * height at least
text_length + 1 (room for at least one terminator cell). -/
theorem C2_geometry_bounds (text_length : Nat) :
    1 ≤ (get_image_size text_length).2 ∧
    (get_image_size text_length).2 ≤ (get_image_size text_length).1 ∧
    text_length + 1 ≤ (get_image_size text_length).1 * (get_image_size text_length).2 := by
  obtain ⟨h1, h2, h3⟩ := get_image_size_spec text_length
  refine ⟨h1, h2, ?_⟩
  rw [h3]
  unfold true_length
  split <;> omega

/-- C8: the product width * height equals exactly text_length + 2 when
text_length is even and exactly text_length + 1 when odd, i.e. it equals
true_length, because the two middle divisors are a complementary factor
pair. -/
theorem C8_exact_product (text_length : Nat) :
    (get_image_size text_length).1 * (get_image_size text_length).2 =
      (if text_length % 2 = 0 then text_length + 2 else text_length + 1) :=
  (get_image_size_spec text_length).2.2

/-- C9: termination of get_image_size: true_length is even and at least 2,
its divisor list is non-empty, and whenever that list has even length the
trimming loop reaches a list of exactly two elements. -/
theorem C9_trim_terminates (text_length : Nat) :
    true_length text_length % 2 = 0 ∧ 2 ≤ true_length text_length ∧
    _factors (true_length text_length) ≠ [] ∧
    ((_factors (true_length text_length)).length % 2 = 0 →
      (pop_middle (_factors (true_length text_length)).length
        (_factors (true_length text_length))).length = 2) := by
  have htwo : 2 ≤ true_length text_length := by unfold true_length; split <;> omega
  refine ⟨by unfold true_length; split <;> omega, htwo, ?_, ?_⟩
  · exact List.ne_nil_of_mem (one_mem_factors (by omega))
  · intro hpar
    have hlen2 : 2 ≤ (_factors (true_length text_length)).length :=
      two_le_length_factors htwo
    obtain ⟨k, hk⟩ : ∃ k, (_factors (true_length text_length)).length = 2 * k :=
      ⟨(_factors (true_length text_length)).length / 2, by omega⟩
    have hk1 : 1 ≤ k := by omega
    rw [pop_middle_eq (k - 1) _ _ (by omega) (by omega)]
    rfl

/-- C9 witness: instantiation at text_length 0 (true_length 2, divisor
list [1, 2] of even length, trimmed to exactly two elements). -/
theorem C9_trim_terminates_witness :
    (_factors (true_length 0)).length % 2 = 0 ∧
    (pop_middle (_factors (true_length 0)).length (_factors (true_length 0))).length = 2 :=
  ⟨by decide, (C9_trim_terminates 0).2.2.2 (by decide)⟩

/-- C1 as stated is false: the character with code point 300 is non-zero
modulo 256 and produces no zero values in the raster, yet decoding the
encoded raster yields code point 44 (300 mod 256), not 300. -/
theorem C1_roundtrip_counterexample :
    300 % 256 ≠ 0 ∧ decode (encode_raster [300] 256) = [44] ∧
    decode (encode_raster [300] 256) ≠ [300] := by
  decide

/-- C1 amended: for every text whose code points all lie in [1, limit-1],
decoding the raster produced by encoding yields exactly the text. -/
theorem C1_roundtrip (s : List Nat) (limit : Nat)
    (hchars : ∀ c ∈ s, 1 ≤ c ∧ c < limit) :
    decode (encode_raster s limit) = s := by
  rw [decode_encode_raster]
  have hid : s.map (fun c => convert_char_to_int c limit) = s.map id := by
    refine List.map_congr_left ?_
    intro c hc
    obtain ⟨h1, h2⟩ := hchars c hc
    simp only [convert_char_to_int, id]
    rw [Nat.mod_eq_of_lt h2]
    rw [if_neg (by omega)]
  rw [hid, List.map_id]

/-- C1 witness: the text [72, 73] with limit 256 round-trips. -/
theorem C1_roundtrip_witness :
    (∀ c ∈ ([72, 73] : List Nat), 1 ≤ c ∧ c < 256) ∧
    decode (encode_raster [72, 73] 256) = [72, 73] :=
  ⟨by decide, C1_roundtrip [72, 73] 256 (by decide)⟩

/-- C4: the code has no validation of limit at all; encode with limit 1
succeeds and produces a raster in which every character maps to the value
1 (here the text [65, 66] becomes the 2 x 2 raster [1, 1, 0, 0]), instead
of failing as the claim requires. -/
theorem C4_limit_one_not_rejected :
    encode (PyVal.str [65, 66]) [97] 1 =
      Except.ok ([97, 46, 112, 110, 103],
        { width := 2, height := 2, pixels := [1, 1, 0, 0] }) := rfl

/-- C5: when the text leaves at least one raster cell unwritten, every
cell at or past the text length holds intensity exactly 0, and decoding
the raster yields one character per text character (the value-mapped
text) with no characters contributed by the trailing zero cells.  The
hypothesis 1 ≤ limit keeps the model inside the domain where Python does
not raise ZeroDivisionError. -/
theorem C5_terminator_zeros (s : List Nat) (limit : Nat) (hlim : 1 ≤ limit)
    (hroom : s.length <
      (encode_raster s limit).width * (encode_raster s limit).height) :
    (∀ i, s.length ≤ i →
      i < (encode_raster s limit).width * (encode_raster s limit).height →
      (encode_raster s limit).pixels.getD i 0 = 0) ∧
    decode (encode_raster s limit) = s.map (fun c => convert_char_to_int c limit) := by
  refine ⟨?_, decode_encode_raster s limit⟩
  intro i hge hlt
  simp only [encode_raster] at hlt ⊢
  rw [encode_pixels_split s limit _ (by omega)]
  have hlen : (s.map (fun c => convert_char_to_int c limit)
      ++ List.replicate ((get_image_size s.length).1 * (get_image_size s.length).2
        - s.length) 0).length
      = (get_image_size s.length).1 * (get_image_size s.length).2 := by
    simp
    omega
  have hi : i < (s.map (fun c => convert_char_to_int c limit)
      ++ List.replicate ((get_image_size s.length).1 * (get_image_size s.length).2
        - s.length) 0).length := by omega
  rw [getD_eq_get hi]
  rw [List.getElem_append_right (by simpa using hge)]
  rw [List.getElem_replicate]

/-- C5 witness: the text [72] with limit 256 occupies one cell of its
2 x 1 raster; the remaining cell is 0 and decode returns exactly one
character. -/
theorem C5_terminator_zeros_witness :
    (1 ≤ 256 ∧
      ([72] : List Nat).length <
        (encode_raster [72] 256).width * (encode_raster [72] 256).height) ∧
    ((∀ i, ([72] : List Nat).length ≤ i →
        i < (encode_raster [72] 256).width * (encode_raster [72] 256).height →
        (encode_raster [72] 256).pixels.getD i 0 = 0) ∧
      decode (encode_raster [72] 256) =
        ([72] : List Nat).map (fun c => convert_char_to_int c 256)) :=
  ⟨⟨by decide, by decide⟩, C5_terminator_zeros [72] 256 (by decide) (by decide)⟩

/-- C3: for every character code point and every limit ≥ 2,
convert_char_to_int returns a value in [1, limit-1] and never 0; when the
code point is an exact multiple of limit the result is exactly 1. -/
theorem C3_char_to_int_bounds (char limit : Nat) (h : 2 ≤ limit) :
    (1 ≤ convert_char_to_int char limit ∧ convert_char_to_int char limit ≤ limit - 1) ∧
    convert_char_to_int char limit ≠ 0 ∧
    (char % limit = 0 → convert_char_to_int char limit = 1) := by
  unfold convert_char_to_int
  have hm : char % limit < limit := Nat.mod_lt _ (by omega)
  by_cases h0 : char % limit = 0 <;> simp [h0] <;> omega

/-- C3 witness: instantiation at code point 256 with limit 256 (the
spec example: a code point equal to the limit maps to 1, not 0). -/
theorem C3_char_to_int_bounds_witness :
    (1 ≤ convert_char_to_int 256 256 ∧ convert_char_to_int 256 256 ≤ 256 - 1) ∧
    convert_char_to_int 256 256 ≠ 0 ∧
    (256 % 256 = 0 → convert_char_to_int 256 256 = 1) :=
  C3_char_to_int_bounds 256 256 (by decide)

/-- C6: encode rejects every non-string text value with a TypeError; in
the model the error is returned before any path normalisation or raster
construction happens. -/
theorem C6_encode_type_check (text : PyVal) (image_path : List Nat) (limit : Nat)
    (h : ∀ s : List Nat, text ≠ PyVal.str s) :
    encode text image_path limit = Except.error PyErr.typeError := by
  cases text with
  | str s => exact absurd rfl (h s)
  | int n => rfl
  | pyNone => rfl

/-- C6 witness: the integer 5 is not a string and encode rejects it. -/
theorem C6_encode_type_check_witness :
    (∀ s : List Nat, PyVal.int 5 ≠ PyVal.str s) ∧
    encode (PyVal.int 5) [] 256 = Except.error PyErr.typeError :=
  ⟨fun s h => PyVal.noConfusion h,
   C6_encode_type_check (PyVal.int 5) [] 256 (fun s h => PyVal.noConfusion h)⟩

lemma py_lower_idem (c : Nat) : py_lower (py_lower c) = py_lower c := by
  unfold py_lower
  by_cases h : 65 ≤ c ∧ c ≤ 90
  · rw [if_pos h, if_neg (by omega)]
  · rw [if_neg h, if_neg h]

lemma map_py_lower_idem (l : List Nat) :
    (l.map py_lower).map py_lower = l.map py_lower := by
  rw [List.map_map]
  exact List.map_congr_left (fun c _ => py_lower_idem c)

lemma takeLast_append (a b : List Nat) : takeLast (a ++ b) b.length = b := by
  unfold takeLast
  rw [List.length_append]
  have h : a.length + b.length - b.length = a.length := by omega
  rw [h, List.drop_left]

/-- The stripping loop succeeds as soon as some character is neither a
slash nor a backslash. -/
lemma strip_rev_some {l : List Nat} (h : ∃ c ∈ l, c ≠ 47 ∧ c ≠ 92) :
    ∃ r, strip_rev l = Except.ok r := by
  induction l with
  | nil => simp at h
  | cons c rest ih =>
    by_cases hc : c = 47 ∨ c = 92
    · have h' : ∃ d ∈ rest, d ≠ 47 ∧ d ≠ 92 := by
        obtain ⟨d, hd, hdp⟩ := h
        rcases List.mem_cons.mp hd with rfl | hdr
        · omega
        · exact ⟨d, hdr, hdp⟩
      obtain ⟨r, hr⟩ := ih h'
      exact ⟨r, by simp [strip_rev, hc, hr]⟩
    · exact ⟨(c :: rest).reverse, by simp [strip_rev, hc]⟩

/-- The stripping loop always ends in IndexError on a string of slashes
and backslashes only (including the empty string). -/
lemma strip_rev_all_slash : ∀ {l : List Nat}, (∀ c ∈ l, c = 47 ∨ c = 92) →
    strip_rev l = Except.error PyErr.indexError := by
  intro l h
  induction l with
  | nil => rfl
  | cons c rest ih =>
    have hc : c = 47 ∨ c = 92 := h c (by simp)
    simp only [strip_rev]
    rw [if_pos hc]
    exact ih (fun d hd => h d (by simp [hd]))

/-- C7 as stated fails at two concrete ASCII inputs (on which the model
coincides with Python).  First, the non-empty filepath "/" with extension
".png" makes check_filename strip the string empty and fail with
IndexError instead of returning anything.  Second, the filepath "a.PNG"
with extension ".png" is returned unchanged because the comparison is
case-insensitive, and its trailing characters are not the extension ".png"
itself. -/
theorem C7_suffix_counterexample :
    check_filename [47] png_ext = Except.error PyErr.indexError ∧
    check_filename [97, 46, 80, 78, 71] png_ext = Except.ok [97, 46, 80, 78, 71] ∧
    takeLast [97, 46, 80, 78, 71] png_ext.length ≠ png_ext :=
  ⟨rfl, rfl, by decide⟩

/-- C7 amended: for every filepath and extension made of ASCII code
points (the domain on which the ASCII lower-casing model is exact), where
the filepath contains at least one character that is neither a slash nor
a backslash and the extension starts with a period, check_filename
returns a path whose trailing characters match the extension up to ASCII
case. -/
theorem C7_suffix_postcondition (filepath extension : List Nat)
    (hfp_ascii : ∀ c ∈ filepath, c < 128)
    (hext_ascii : ∀ c ∈ extension, c < 128)
    (hnonslash : ∃ c ∈ filepath, c ≠ 47 ∧ c ≠ 92)
    (hext : ∃ t, extension = 46 :: t) :
    ∃ r, check_filename filepath extension = Except.ok r ∧
      (takeLast r extension.length).map py_lower = extension.map py_lower := by
  obtain ⟨t, rfl⟩ := hext
  by_cases hmatch :
      (takeLast filepath (46 :: t).length).map py_lower = (46 :: t).map py_lower
  · refine ⟨filepath, ?_, hmatch⟩
    simp only [check_filename]
    rw [if_neg (by simp)]
    rw [if_neg (not_not_intro hmatch)]
  · obtain ⟨r0, hr0⟩ := strip_rev_some (l := filepath.reverse)
      (by
        obtain ⟨c, hc, hcp⟩ := hnonslash
        exact ⟨c, List.mem_reverse.mpr hc, hcp⟩)
    refine ⟨r0 ++ (46 :: t).map py_lower, ?_, ?_⟩
    · simp only [check_filename]
      rw [if_neg (by simp)]
      rw [if_pos hmatch]
      rw [hr0]
    · have hlen : ((46 :: t).map py_lower).length = (46 :: t).length := by simp
      rw [← hlen, takeLast_append, map_py_lower_idem]

/-- C7 witness: the one-character ASCII filepath "a" with extension
".png" gets ".png" appended and ends with it. -/
theorem C7_suffix_postcondition_witness :
    ((∀ c ∈ ([97] : List Nat), c < 128) ∧ (∀ c ∈ png_ext, c < 128) ∧
      (∃ c ∈ ([97] : List Nat), c ≠ 47 ∧ c ≠ 92) ∧ (∃ t, png_ext = 46 :: t)) ∧
    (∃ r, check_filename [97] png_ext = Except.ok r ∧
      (takeLast r png_ext.length).map py_lower = png_ext.map py_lower) :=
  ⟨⟨by decide, by decide, by decide, ⟨[112, 110, 103], rfl⟩⟩,
   C7_suffix_postcondition [97] png_ext (by decide) (by decide) (by decide)
     ⟨[112, 110, 103], rfl⟩⟩

/-- C10: on every non-empty filepath made only of slashes and backslashes
whose suffix does not already match the extension, the stripping loop
empties the string and the next index access raises IndexError, so
check_filename fails rather than returning a path. -/
theorem C10_all_slash_fails (filepath extension : List Nat)
    (hne : filepath ≠ [])
    (hslash : ∀ c ∈ filepath, c = 47 ∨ c = 92)
    (hext : ∃ t, extension = 46 :: t)
    (hmismatch :
      (takeLast filepath extension.length).map py_lower ≠ extension.map py_lower) :
    check_filename filepath extension = Except.error PyErr.indexError := by
  obtain ⟨t, rfl⟩ := hext
  simp only [check_filename]
  rw [if_neg (by simp)]
  rw [if_pos hmismatch]
  have hstrip : strip_rev filepath.reverse = Except.error PyErr.indexError :=
    strip_rev_all_slash (fun c hc => hslash c (List.mem_reverse.mp hc))
  rw [hstrip]

/-- C10 witness: the filepath "/" with extension ".png" fails with
IndexError. -/
theorem C10_all_slash_fails_witness :
    (([47] : List Nat) ≠ [] ∧ (∀ c ∈ ([47] : List Nat), c = 47 ∨ c = 92) ∧
      (∃ t, png_ext = 46 :: t) ∧
      (takeLast [47] png_ext.length).map py_lower ≠ png_ext.map py_lower) ∧
    check_filename [47] png_ext = Except.error PyErr.indexError :=
  ⟨⟨by decide, by decide, ⟨[112, 110, 103], rfl⟩, by decide⟩,
   C10_all_slash_fails [47] png_ext (by decide) (by decide)
     ⟨[112, 110, 103], rfl⟩ (by decide)⟩

end TextImage
